import Mathlib

/-!
Verification development for the Publisher Final Delivery ingestion engine
(`engine.py`): the keyword normalizer `process_keywords`, the Clean Room
validator `validate_data`, and the package compiler `compile_final_package`.

Python strings are modelled as `List Char`; the Python string operations
used by the engine (`strip`, `split`, `lower`, `title`, `count`, `in`,
`join`, `re.split`, `re.sub` for the edge-stripping pattern) are given
executable definitions below.  Case conversion follows the ASCII (basic
latin) range, matching the data the engine processes.
-/

namespace Publisher

/-- Coerce a Lean string literal to the `List Char` model. -/
def str (s : String) : List Char := s.data

/-- The apostrophe character (U+0027), used in the validator messages. -/
def apos : Char := Char.ofNat 39

/-- Python `str.isspace` set for ASCII: space, tab, LF, VT, FF, CR.
These are the characters stripped by `str.strip()` and separating
`str.split()` words. -/
def isSpaceChar (c : Char) : Bool :=
  decide (c.toNat = 32 ∨ c.toNat = 9 ∨ c.toNat = 10 ∨ c.toNat = 11 ∨
          c.toNat = 12 ∨ c.toNat = 13)

/-- Separator class of `re.split(r'[,;]', ...)`: comma or semicolon. -/
def isSepChar (c : Char) : Bool :=
  decide (c.toNat = 44 ∨ c.toNat = 59)

/-- The comma character test used by `kw_str.split(',')`. -/
def isComma (c : Char) : Bool :=
  decide (c.toNat = 44)

/-- The plain space character test used by `desc.split(' ')` and `kw.count(' ')`. -/
def isSpace32 (c : Char) : Bool :=
  decide (c.toNat = 32)

/-- ASCII letter test (the cased characters in the ASCII range). -/
def isAsciiAlpha (c : Char) : Bool :=
  decide ((65 ≤ c.toNat ∧ c.toNat ≤ 90) ∨ (97 ≤ c.toNat ∧ c.toNat ≤ 122))

/-- Python `\w` word-character class, ASCII range: letters, digits, underscore. -/
def isWordChar (c : Char) : Bool :=
  isAsciiAlpha c || decide ((48 ≤ c.toNat ∧ c.toNat ≤ 57) ∨ c.toNat = 95)

/-- ASCII lowercasing of one character (Python `str.lower`). -/
def pyToLower (c : Char) : Char :=
  if 65 ≤ c.toNat ∧ c.toNat ≤ 90 then Char.ofNat (c.toNat + 32) else c

/-- ASCII uppercasing of one character (Python `str.upper`). -/
def pyToUpper (c : Char) : Char :=
  if 97 ≤ c.toNat ∧ c.toNat ≤ 122 then Char.ofNat (c.toNat - 32) else c

/-- `Char.ofNat` is left inverse to `Char.toNat` on the valid low range. -/
theorem toNat_ofNat_lt (n : Nat) (h : n < 55296) : (Char.ofNat n).toNat = n := by
  have hv : n.isValidChar := Or.inl h
  simp only [Char.ofNat, hv, dif_pos]
  simp [Char.ofNatAux, Char.toNat, UInt32.toNat, BitVec.toNat_ofNatLt]

theorem toNat_pyToLower (c : Char) :
    (pyToLower c).toNat = if 65 ≤ c.toNat ∧ c.toNat ≤ 90 then c.toNat + 32 else c.toNat := by
  unfold pyToLower
  split
  · next h =>
    have : c.toNat + 32 < 55296 := by omega
    exact toNat_ofNat_lt _ this
  · rfl

theorem toNat_pyToUpper (c : Char) :
    (pyToUpper c).toNat = if 97 ≤ c.toNat ∧ c.toNat ≤ 122 then c.toNat - 32 else c.toNat := by
  unfold pyToUpper
  split
  · next h =>
    have : c.toNat - 32 < 55296 := by omega
    exact toNat_ofNat_lt _ this
  · rfl

/-- Python `s.strip()`: drop leading and trailing whitespace. -/
def stripList (s : List Char) : List Char :=
  List.rdropWhile isSpaceChar (List.dropWhile isSpaceChar s)

/-- Map Python `s.lower()` over the model string. -/
def lowerStr (s : List Char) : List Char := s.map pyToLower

/-- Split on every character satisfying `q`, keeping empty pieces — the
semantics of `re.split(r'[,;]', s)` (for `q = isSepChar`) and of
`s.split(',')` / `s.split(' ')` (for the single-character tests). -/
def splitKeep (q : Char → Bool) : List Char → List (List Char)
  | [] => [[]]
  | c :: rest =>
    if q c then [] :: splitKeep q rest
    else
      match splitKeep q rest with
      | [] => [[c]]
      | g :: gs => (c :: g) :: gs

/-- Helper for `pyWords`: accumulates the current (reversed) word. -/
def wordsAux (cur : List Char) : List Char → List (List Char)
  | [] => if cur.isEmpty then [] else [cur.reverse]
  | c :: rest =>
    if isSpaceChar c then
      if cur.isEmpty then wordsAux [] rest else cur.reverse :: wordsAux [] rest
    else wordsAux (c :: cur) rest

/-- Python `s.split()` with no argument: maximal runs of non-whitespace. -/
def pyWords (s : List Char) : List (List Char) := wordsAux [] s

/-- Python `s.count(' ')`: the number of space characters in `s`. -/
def countSpaces (s : List Char) : Nat := s.countP isSpace32

/-- Helper for `pyTitle`; the flag records whether the previous character
was cased (an ASCII letter). -/
def titleAux (prevAlpha : Bool) : List Char → List Char
  | [] => []
  | c :: rest =>
    if isAsciiAlpha c then
      (cond prevAlpha (pyToLower c) (pyToUpper c)) :: titleAux true rest
    else c :: titleAux false rest

/-- Python `s.title()`: first letter of each alphabetic run uppercased,
the rest lowercased. -/
def pyTitle (s : List Char) : List Char := titleAux false s

/-- Does `pre` occur at the start of `s`? -/
def leadsWith : List Char → List Char → Bool
  | [], _ => true
  | _ :: _, [] => false
  | a :: as, b :: bs => a == b && leadsWith as bs

/-- Python substring containment `needle in hay`. -/
def occursIn (needle : List Char) : List Char → Bool
  | [] => needle.isEmpty
  | c :: rest => leadsWith needle (c :: rest) || occursIn needle rest

/-- Mathematical substring containment, for stating the claims. -/
def SubstrOf (b s : List Char) : Prop := ∃ u v, s = u ++ b ++ v

/-- Python `sep.join(pieces)`. -/
def pyJoin (sep : List Char) : List (List Char) → List Char
  | [] => []
  | [x] => x
  | x :: y :: rest => x ++ sep ++ pyJoin sep (y :: rest)

/-- `re.sub(r'^\W+|\W+$', '', s)`: strip leading and trailing non-word
characters. -/
def stripNonWord (s : List Char) : List Char :=
  List.rdropWhile (fun c => !isWordChar c) (List.dropWhile (fun c => !isWordChar c) s)

/-! ### The normalizer `IngestionEngine.process_keywords` -/

/-- The hard-coded global ban set of `process_keywords` and `validate_data`. -/
def globalBans : List (List Char) :=
  [str "epic", str "huge", str "massive", str "awesome", str "badass"]

/-- The `kw_list` comprehension: split the raw keywords on `[,;]`, strip
each piece, drop empty results. -/
def phrasesOf (raw : List Char) : List (List Char) :=
  ((splitKeep isSepChar raw).map stripList).filter (fun k => !k.isEmpty)

/-- The long-phrase correction loop body.  The external text-generation
call (`model.generate_content`) is modelled by `rewriter`: `none` is a
raised exception, `some t` a response whose text is `t`.  The phrase is
sent to the rewriter exactly when it has more than two space characters;
a failure, or a response that strips to empty, keeps the phrase. -/
def correctPhrase (rewriter : List Char → Option (List Char)) (kw : List Char) :
    List Char :=
  if 2 < countSpaces kw then
    match rewriter kw with
    | none => kw
    | some t =>
      let nk := stripList t
      if nk.isEmpty then kw else nk
  else kw

/-- The `has_ban` test: a global ban equal to one of the lowercase word
tokens, or a catalog ban occurring as a substring of the lowercase phrase. -/
def hasBan (catalogBans : List (List Char)) (kw : List Char) : Bool :=
  let kwLower := lowerStr kw
  let words := pyWords kwLower
  globalBans.any (fun ban => words.contains ban) ||
    catalogBans.any (fun ban => occursIn ban kwLower)

/-- The keep condition of the final loop:
`not has_ban and kw_lower not in global_bans and kw_lower not in banned_from_catalog`. -/
def keepPhrase (catalogBans : List (List Char)) (kw : List Char) : Bool :=
  !hasBan catalogBans kw && !globalBans.contains (lowerStr kw) &&
    !catalogBans.contains (lowerStr kw)

/-- The 3-word truncation and title-casing applied to a kept phrase. -/
def finalizePhrase (kw : List Char) : List Char :=
  let parts := pyWords (lowerStr kw)
  if 3 < parts.length then pyTitle (pyJoin (str " ") (parts.take 3))
  else pyTitle kw

/-- `IngestionEngine.process_keywords`.  The catalog ban list (the
stripped, lowercased, non-empty lines of `Banned_Keywords.txt`; empty
when the file is absent) and the generation capability are passed
explicitly. -/
def process_keywords (rewriter : List Char → Option (List Char))
    (catalogBans : List (List Char)) (keywords_raw : List Char) : List Char :=
  if keywords_raw.isEmpty then []
  else
    let corrected := (phrasesOf keywords_raw).map (correctPhrase rewriter)
    let final := (corrected.filter (keepPhrase catalogBans)).map finalizePhrase
    pyJoin (str ", ") final

/-! ### The validator `IngestionEngine.validate_data` -/

/-- One track record.  The source stores tracks as dicts with keys
`Title`, `Keywords`, `Track Description`; `dict.get` with a default of
`''` is modelled by total string fields (an absent key holds `[]`). -/
structure Track where
  Title : List Char
  Keywords : List Char
  TrackDescription : List Char
  deriving DecidableEq

/-- The `data` dict handed to `validate_data` / `compile_final_package`:
an absent or empty `tracks` key is the empty list, absent text keys are
empty strings. -/
structure AlbumData where
  tracks : List Track
  album_description : List Char
  album_name : List Char
  cover_art : List Char
  mailchimp_intro : List Char
  deriving DecidableEq

/-- The shared prefix `f"ERROR: Track '{title}' keyword '{kw}'"` of the two
keyword messages. -/
def msgKwPre (title kw : List Char) : List Char :=
  str "ERROR: Track " ++ [apos] ++ title ++ [apos] ++ str " keyword " ++ [apos] ++
    kw ++ [apos]

/-- `f"ERROR: Track '{title}' keyword '{kw}' contains too many spaces (>2)."` -/
def msgSpaces (title kw : List Char) : List Char :=
  msgKwPre title kw ++ str " contains too many spaces (>2)."

/-- `f"ERROR: Track '{title}' keyword '{kw}' contains a banned word."` -/
def msgBanned (title kw : List Char) : List Char :=
  msgKwPre title kw ++ str " contains a banned word."

/-- `f"ERROR: Track '{title}' description violates the Antigravity Protocol (Starts with '{first_word}')."` -/
def msgAntigravity (title firstWord : List Char) : List Char :=
  str "ERROR: Track " ++ [apos] ++ title ++ [apos] ++
    str " description violates the Antigravity Protocol (Starts with " ++
    [apos] ++ firstWord ++ [apos] ++ str ")."

/-- `"ERROR: Album Description contains a banned word."` -/
def msgAlbumDesc : List Char := str "ERROR: Album Description contains a banned word."

/-- `"ERROR: Album Name contains a banned word."` -/
def msgAlbumName : List Char := str "ERROR: Album Name contains a banned word."

/-- `"ERROR: No track data found to export."` -/
def msgNoTracks : List Char := str "ERROR: No track data found to export."

/-- `any(b in text for b in banned)` — the validator's ban test, applied
to already-lowercased text at each of its three sites. -/
def banHit (banned : List (List Char)) (textLower : List Char) : Bool :=
  banned.any (fun b => occursIn b textLower)

/-- The loop body over `kw_str.split(',')`: the spaces check and the ban
check for one comma-separated keyword. -/
def oneKeywordChecks (banned : List (List Char)) (title kRaw : List Char) :
    List (List Char) :=
  let kw := stripList kRaw
  (if 2 < countSpaces kw then [msgSpaces title kw] else []) ++
    (if banHit banned (lowerStr kw) then [msgBanned title kw] else [])

/-- The keyword checks of one track (`if kw_str:` guard, then the split loop). -/
def keywordChecks (banned : List (List Char)) (title kwStr : List Char) :
    List (List Char) :=
  if kwStr.isEmpty then []
  else ((splitKeep isComma kwStr).map (oneKeywordChecks banned title)).flatten

/-- The Antigravity Protocol check of one track description. -/
def descCheck (title desc0 : List Char) : List (List Char) :=
  let desc := stripList desc0
  if desc.isEmpty then []
  else
    let firstWord := stripNonWord (lowerStr ((splitKeep isSpace32 desc).headD []))
    if firstWord = str "a" ∨ firstWord = str "an" ∨ firstWord = str "the" then
      [msgAntigravity title firstWord]
    else []

/-- All checks of one track, in source order. -/
def trackChecks (banned : List (List Char)) (t : Track) : List (List Char) :=
  keywordChecks banned t.Title t.Keywords ++ descCheck t.Title t.TrackDescription

/-- The `data.get('album_description', '').lower()` ban check. -/
def albumDescCheck (banned : List (List Char)) (s : List Char) : List (List Char) :=
  if banHit banned (lowerStr s) then [msgAlbumDesc] else []

/-- The `data.get('album_name', '').lower()` ban check. -/
def albumNameCheck (banned : List (List Char)) (s : List Char) : List (List Char) :=
  if banHit banned (lowerStr s) then [msgAlbumName] else []

/-- `IngestionEngine.validate_data`.  Returns `(passed, errors)` with
`passed = (len(errors) == 0)`; the merged ban set is the global set plus
the catalog list. -/
def validate_data (catalogBans : List (List Char)) (d : AlbumData) :
    Bool × List (List Char) :=
  let banned := globalBans ++ catalogBans
  let errors :=
    (d.tracks.map (trackChecks banned)).flatten ++
      albumDescCheck banned d.album_description ++
      albumNameCheck banned d.album_name ++
      (if d.tracks.isEmpty then [msgNoTracks] else [])
  (errors.length == 0, errors)

/-! ### The compiler `IngestionEngine.compile_final_package`

The ZIP container is modelled as the ordered list of its entries, each a
`(name, content)` pair, in the order they are written (timestamp and
compression metadata of the container format are outside the model).
The CSV text follows `DataFrame.to_csv(index=False)`: `\n` line ends,
minimal quoting (a field is double-quoted when it contains a comma, a
double quote, or a line break, with inner quotes doubled). -/

/-- The double-quote character. -/
def dquote : Char := Char.ofNat 34

/-- Render one CSV field with minimal quoting. -/
def csvCell (s : List Char) : List Char :=
  if s.any (fun c => decide (c.toNat = 44 ∨ c.toNat = 34 ∨ c.toNat = 10 ∨ c.toNat = 13)) then
    [dquote] ++ s.flatMap (fun c => if c.toNat = 34 then [dquote, dquote] else [c]) ++ [dquote]
  else s

/-- Render one CSV record and its terminating newline. -/
def csvLine (fields : List (List Char)) : List Char :=
  pyJoin (str ",") (fields.map csvCell) ++ str "\n"

/-- `pd.DataFrame(data['tracks'])[['Title', 'Keywords']].to_csv(index=False)`. -/
def trackKwCsv (tracks : List Track) : List Char :=
  csvLine [str "Title", str "Keywords"] ++
    (tracks.map (fun t => csvLine [t.Title, t.Keywords])).flatten

/-- `pd.DataFrame(data['tracks'])[['Title', 'Track Description']].to_csv(index=False)`. -/
def trackDescCsv (tracks : List Track) : List Char :=
  csvLine [str "Title", str "Track Description"] ++
    (tracks.map (fun t => csvLine [t.Title, t.TrackDescription])).flatten

/-- `IngestionEngine.compile_final_package`: the two CSV entries are
written only when `data['tracks']` is present and non-empty; the four
text entries are always written, in this order. -/
def compile_final_package (d : AlbumData) : List (List Char × List Char) :=
  (if !d.tracks.isEmpty then
    [(str "01 Track Keywords/Track_Keywords.csv", trackKwCsv d.tracks)] else []) ++
  (if !d.tracks.isEmpty then
    [(str "02 Track Descriptions/Track_Descriptions.csv", trackDescCsv d.tracks)] else []) ++
  [(str "03 Album Description/Album_Description.txt", d.album_description),
   (str "04 Album Name/Album_Name.txt", d.album_name),
   (str "05 Album Cover Art/MidJourney_Prompts.txt", d.cover_art),
   (str "06 MailChimp Intro/MailChimp_Copy.txt", d.mailchimp_intro)]

/-- A generation capability that always fails (every call raises). -/
def noRewrite : List Char → Option (List Char) := fun _ => none

/-! ### Support lemmas -/

theorem leadsWith_iff (a : List Char) : ∀ s, leadsWith a s = true ↔ ∃ v, s = a ++ v := by
  induction a with
  | nil => intro s; simp [leadsWith]
  | cons x xs ih =>
    intro s
    cases s with
    | nil => simp [leadsWith]
    | cons y ys =>
      simp only [leadsWith, Bool.and_eq_true, beq_iff_eq, ih, List.cons_append]
      constructor
      · rintro ⟨rfl, v, rfl⟩; exact ⟨v, rfl⟩
      · rintro ⟨v, h⟩
        injection h with h1 h2
        exact ⟨h1.symm, v, h2⟩

theorem occursIn_iff (b : List Char) : ∀ s, occursIn b s = true ↔ SubstrOf b s := by
  intro s
  induction s with
  | nil =>
    simp only [occursIn, List.isEmpty_iff, SubstrOf]
    constructor
    · rintro rfl; exact ⟨[], [], rfl⟩
    · rintro ⟨u, v, h⟩
      rcases List.append_eq_nil.mp h.symm with ⟨h1, h2⟩
      rcases List.append_eq_nil.mp h1 with ⟨-, h3⟩
      exact h3
  | cons c t ih =>
    simp only [occursIn, Bool.or_eq_true, leadsWith_iff, ih, SubstrOf]
    constructor
    · rintro (⟨v, h⟩ | ⟨u, v, h⟩)
      · exact ⟨[], v, by simpa using h⟩
      · exact ⟨c :: u, v, by simp [h]⟩
    · rintro ⟨u, v, h⟩
      cases u with
      | nil => exact Or.inl ⟨v, by simpa using h⟩
      | cons x xs =>
        injection h with h1 h2
        exact Or.inr ⟨xs, v, h2⟩

theorem occursIn_self (s : List Char) : occursIn s s = true := by
  cases s with
  | nil => rfl
  | cons c t =>
    simp only [occursIn, Bool.or_eq_true]
    exact Or.inl ((leadsWith_iff _ _).mpr ⟨[], by simp⟩)

theorem banHit_iff (banned : List (List Char)) (t : List Char) :
    banHit banned t = true ↔ ∃ b ∈ banned, SubstrOf b t := by
  simp [banHit, List.any_eq_true, occursIn_iff]

theorem msgSpaces_ne_msgBanned (t k : List Char) : msgSpaces t k ≠ msgBanned t k := by
  intro h
  unfold msgSpaces msgBanned at h
  have h2 := List.append_cancel_left h
  have := congrArg List.length h2
  simp [str] at this

/-! ### Claim theorems -/

/-- C3: for every input with a non-empty track sequence, the archive built by
`compile_final_package` has exactly the six fixed section names in order; the
two CSV tables consist of a header line followed by one line per track in
exactly the input track order (so equal inputs give byte-identical tabular
content, the compiler being a pure function of its input). -/
theorem compile_package_six_sections (d : AlbumData) (h : d.tracks ≠ []) :
    compile_final_package d =
      [(str "01 Track Keywords/Track_Keywords.csv", trackKwCsv d.tracks),
       (str "02 Track Descriptions/Track_Descriptions.csv", trackDescCsv d.tracks),
       (str "03 Album Description/Album_Description.txt", d.album_description),
       (str "04 Album Name/Album_Name.txt", d.album_name),
       (str "05 Album Cover Art/MidJourney_Prompts.txt", d.cover_art),
       (str "06 MailChimp Intro/MailChimp_Copy.txt", d.mailchimp_intro)] ∧
    trackKwCsv d.tracks =
      csvLine [str "Title", str "Keywords"] ++
        (d.tracks.map (fun t => csvLine [t.Title, t.Keywords])).flatten ∧
    trackDescCsv d.tracks =
      csvLine [str "Title", str "Track Description"] ++
        (d.tracks.map (fun t => csvLine [t.Title, t.TrackDescription])).flatten ∧
    (d.tracks.map (fun t => csvLine [t.Title, t.Keywords])).length = d.tracks.length := by
  have he : d.tracks.isEmpty = false := by simpa using h
  refine ⟨?_, rfl, rfl, by simp⟩
  simp [compile_final_package, he]

/-- Witness for C3 at a concrete one-track album. -/
theorem compile_package_six_sections_witness :
    compile_final_package
        ⟨[⟨str "T1", str "K1", str "D1"⟩], str "ad", str "an", str "ca", str "mc"⟩ =
      [(str "01 Track Keywords/Track_Keywords.csv",
          trackKwCsv [⟨str "T1", str "K1", str "D1"⟩]),
       (str "02 Track Descriptions/Track_Descriptions.csv",
          trackDescCsv [⟨str "T1", str "K1", str "D1"⟩]),
       (str "03 Album Description/Album_Description.txt", str "ad"),
       (str "04 Album Name/Album_Name.txt", str "an"),
       (str "05 Album Cover Art/MidJourney_Prompts.txt", str "ca"),
       (str "06 MailChimp Intro/MailChimp_Copy.txt", str "mc")] :=
  (compile_package_six_sections
    ⟨[⟨str "T1", str "K1", str "D1"⟩], str "ad", str "an", str "ca", str "mc"⟩
    (by decide)).1

/-- C4: `validate_data` returns `passed = true` exactly when its error list is
empty, and on an empty track sequence it reports the "no track data" error and
fails. -/
theorem validate_passed_iff_no_errors (bans : List (List Char)) (d : AlbumData) :
    ((validate_data bans d).1 = true ↔ (validate_data bans d).2 = []) ∧
    (d.tracks = [] →
      msgNoTracks ∈ (validate_data bans d).2 ∧ (validate_data bans d).1 = false) := by
  constructor
  · simp only [validate_data, beq_iff_eq, List.length_eq_zero]
  · intro ht
    have hmem : msgNoTracks ∈ (validate_data bans d).2 := by
      simp [validate_data, ht]
    refine ⟨hmem, ?_⟩
    have hne : (validate_data bans d).2 ≠ [] := List.ne_nil_of_mem hmem
    have hlen : (validate_data bans d).2.length ≠ 0 :=
      fun h0 => hne (List.length_eq_zero.mp h0)
    simp only [validate_data] at hlen ⊢
    simpa using hlen

/-- Witness for C4 on an album with no tracks. -/
theorem validate_passed_iff_no_errors_witness :
    msgNoTracks ∈ (validate_data [] ⟨[], [], [], [], []⟩).2 ∧
      (validate_data [] ⟨[], [], [], [], []⟩).1 = false :=
  (validate_passed_iff_no_errors [] ⟨[], [], [], [], []⟩).2 rfl

/-- C9: with an empty (or absent, which the dict model folds into empty) track
sequence, `compile_final_package` still succeeds and writes only the four text
sections, omitting both CSV sections. -/
theorem compile_empty_tracks_four_sections (d : AlbumData) (h : d.tracks = []) :
    compile_final_package d =
      [(str "03 Album Description/Album_Description.txt", d.album_description),
       (str "04 Album Name/Album_Name.txt", d.album_name),
       (str "05 Album Cover Art/MidJourney_Prompts.txt", d.cover_art),
       (str "06 MailChimp Intro/MailChimp_Copy.txt", d.mailchimp_intro)] ∧
    (compile_final_package d).length = 4 := by
  constructor
  · simp [compile_final_package, h]
  · simp [compile_final_package, h]

/-- Witness for C9 at a concrete track-less album. -/
theorem compile_empty_tracks_four_sections_witness :
    compile_final_package ⟨[], str "ad", str "an", str "ca", str "mc"⟩ =
      [(str "03 Album Description/Album_Description.txt", str "ad"),
       (str "04 Album Name/Album_Name.txt", str "an"),
       (str "05 Album Cover Art/MidJourney_Prompts.txt", str "ca"),
       (str "06 MailChimp Intro/MailChimp_Copy.txt", str "mc")] :=
  (compile_empty_tracks_four_sections ⟨[], str "ad", str "an", str "ca", str "mc"⟩ rfl).1

/-- C10: normalization does not guarantee the validator's keyword space check:
the banned-word-free phrase `"dark  moody beat"` (three words, a double space,
failing rewriter) is kept by `process_keywords` with its original spacing, yet
`validate_data` reports a "too many spaces" error for the very same phrase,
because it counts space characters rather than words. -/
theorem normalize_validate_space_mismatch :
    process_keywords noRewrite [] (str "dark  moody beat") = str "Dark  Moody Beat" ∧
    validate_data [] ⟨[⟨str "T", str "Dark  Moody Beat", []⟩], [], [], [], []⟩ =
      (false, [msgSpaces (str "T") (str "Dark  Moody Beat")]) := by
  decide

/-- C2: every ban check performed by the validator — on each trimmed
comma-separated keyword, on the album description, and on the album name —
fires exactly when some entry of the merged ban list is a substring of the
lowercased candidate text; in particular the test is never exact-word: the
entry "huge" triggers on the text "huger". -/
theorem validator_ban_checks_are_substring :
    (∀ banned title kRaw,
        msgBanned title (stripList kRaw) ∈ oneKeywordChecks banned title kRaw ↔
          ∃ b ∈ banned, SubstrOf b (lowerStr (stripList kRaw))) ∧
    (∀ banned s, albumDescCheck banned s ≠ [] ↔ ∃ b ∈ banned, SubstrOf b (lowerStr s)) ∧
    (∀ banned s, albumNameCheck banned s ≠ [] ↔ ∃ b ∈ banned, SubstrOf b (lowerStr s)) ∧
    banHit [str "huge"] (lowerStr (str "huger")) = true := by
  refine ⟨?_, ?_, ?_, by decide⟩
  · intro banned title kRaw
    rw [← banHit_iff]
    unfold oneKeywordChecks
    by_cases hs : 2 < countSpaces (stripList kRaw) <;>
      by_cases hb : banHit banned (lowerStr (stripList kRaw)) = true <;>
        simp [hs, hb, List.mem_append, msgSpaces_ne_msgBanned,
          (msgSpaces_ne_msgBanned title (stripList kRaw)).symm]
  · intro banned s
    rw [← banHit_iff]
    by_cases hb : banHit banned (lowerStr s) = true <;> simp [albumDescCheck, hb]
  · intro banned s
    rw [← banHit_iff]
    by_cases hb : banHit banned (lowerStr s) = true <;> simp [albumNameCheck, hb]

/-- `splitKeep` never returns the empty list of groups. -/
theorem splitKeep_ne_nil (q : Char → Bool) (s : List Char) : splitKeep q s ≠ [] := by
  cases s with
  | nil => simp [splitKeep]
  | cons c rest =>
    unfold splitKeep
    split
    · simp
    · split <;> simp

/-- The first group of `splitKeep` is the prefix before the first separator. -/
theorem splitKeep_headD (q : Char → Bool) (s : List Char) :
    (splitKeep q s).headD [] = s.takeWhile (fun c => !q c) := by
  induction s with
  | nil => rfl
  | cons c rest ih =>
    unfold splitKeep
    by_cases hq : q c
    · simp [hq, List.takeWhile_cons]
    · have hq' : q c = false := by simpa using hq
      simp only [hq', Bool.false_eq_true, if_false, List.takeWhile_cons, hq',
        Bool.not_false, if_true]
      cases hsp : splitKeep q rest with
      | nil => exact absurd hsp (splitKeep_ne_nil q rest)
      | cons g gs =>
        have : (splitKeep q rest).headD [] = g := by rw [hsp]; rfl
        simp only [List.headD_cons]
        rw [← ih, this]

/-- The first whitespace-delimited token of the stripped description — the
reading used by the words of claim C5 (Python `desc.split()[0]`), written to
be compared against the code, which splits on the space character only. -/
def specFirstWhitespaceToken (desc : List Char) : List Char :=
  (pyWords (stripList desc)).headD []

/-- The claim-C5 predicate: the first whitespace-delimited token, stripped of
edge non-word characters and lowercased, is an article. -/
def specArticleStart (desc : List Char) : Bool :=
  [str "a", str "an", str "the"].contains (stripNonWord (lowerStr (specFirstWhitespaceToken desc)))

/-- C5 counterexample: for the description `"a\tb"` the code's check (split on
the space character only) sees the single token `"a\tb"` and raises no
Antigravity error, while the claim's first whitespace-delimited token is `"a"`,
an article — so the claimed equivalence fails. -/
theorem antigravity_whitespace_cex :
    ¬ ((descCheck (str "T") (str "a\tb") ≠ []) ↔ specArticleStart (str "a\tb") = true) := by
  decide

/-- C5 (amended): the validator reports an Antigravity Protocol error exactly
when the first space-delimited token of the trimmed description (its maximal
prefix free of the space character; tabs and newlines do not delimit), after
stripping leading/trailing non-word characters and lowercasing, is one of
"a", "an", "the". -/
theorem antigravity_iff_space_token_article (title desc : List Char) :
    descCheck title desc ≠ [] ↔
      (stripNonWord (lowerStr ((stripList desc).takeWhile (fun c => !isSpace32 c))) = str "a" ∨
       stripNonWord (lowerStr ((stripList desc).takeWhile (fun c => !isSpace32 c))) = str "an" ∨
       stripNonWord (lowerStr ((stripList desc).takeWhile (fun c => !isSpace32 c))) = str "the") := by
  unfold descCheck
  by_cases he : (stripList desc).isEmpty
  · have hnil : stripList desc = [] := by simpa using he
    rw [hnil]
    simp only [List.isEmpty_nil, if_true]
    constructor
    · intro h; exact absurd rfl h
    · intro h; exact absurd h (by decide)
  · simp only [he, Bool.false_eq_true, if_false]
    rw [splitKeep_headD]
    by_cases hc :
        (stripNonWord (lowerStr ((stripList desc).takeWhile (fun c => !isSpace32 c))) = str "a" ∨
         stripNonWord (lowerStr ((stripList desc).takeWhile (fun c => !isSpace32 c))) = str "an" ∨
         stripNonWord (lowerStr ((stripList desc).takeWhile (fun c => !isSpace32 c))) = str "the") <;>
      simp [hc]

/-- A phrase whose lowercasing is itself a global ban entry has that entry
among its word tokens, so the redundant exact-phrase test adds nothing. -/
theorem globalContains_imp_hasBan (bans : List (List Char)) (kw : List Char)
    (h : globalBans.contains (lowerStr kw) = true) : hasBan bans kw = true := by
  have hm : lowerStr kw ∈ globalBans := by simpa using h
  unfold hasBan
  simp only [Bool.or_eq_true]
  refine Or.inl ?_
  simp only [globalBans, List.mem_cons, List.not_mem_nil, or_false] at hm
  rcases hm with h1 | h1 | h1 | h1 | h1 <;> (rw [h1]; decide)

/-- A phrase whose lowercasing is itself a catalog ban entry passes the
substring test, so the redundant exact-phrase test adds nothing. -/
theorem catalogContains_imp_hasBan (bans : List (List Char)) (kw : List Char)
    (h : bans.contains (lowerStr kw) = true) : hasBan bans kw = true := by
  have hm : lowerStr kw ∈ bans := by simpa using h
  unfold hasBan
  simp only [Bool.or_eq_true]
  exact Or.inr (List.any_eq_true.mpr ⟨_, hm, occursIn_self _⟩)

/-- The keep condition of the normalizer's final loop is exactly `¬has_ban`. -/
theorem keepPhrase_false_iff (bans : List (List Char)) (kw : List Char) :
    keepPhrase bans kw = false ↔ hasBan bans kw = true := by
  constructor
  · intro h
    cases hB : hasBan bans kw with
    | true => rfl
    | false =>
      unfold keepPhrase at h
      rw [hB] at h
      cases hg : globalBans.contains (lowerStr kw) with
      | true => exact hB.symm.trans (globalContains_imp_hasBan bans kw hg)
      | false =>
        cases hc : bans.contains (lowerStr kw) with
        | true => exact hB.symm.trans (catalogContains_imp_hasBan bans kw hc)
        | false => rw [hg, hc] at h; simp at h
  · intro h; simp [keepPhrase, h]

/-- C1: a phrase surviving the rewriting step is dropped by the normalizer
precisely when one of its lowercase word tokens equals a global ban entry or a
catalog ban entry occurs as a substring of the whole lowercase phrase; in
particular the spec's example drops `"epic build"` entirely although `"build"`
is not banned. -/
theorem normalizer_drop_iff_ban :
    (∀ bans kw, keepPhrase bans kw = false ↔
        ((∃ w ∈ pyWords (lowerStr kw), w ∈ globalBans) ∨
          ∃ b ∈ bans, SubstrOf b (lowerStr kw))) ∧
    process_keywords noRewrite [] (str "dark thriller, epic build") = str "Dark Thriller" := by
  refine ⟨?_, by decide⟩
  intro bans kw
  rw [keepPhrase_false_iff]
  unfold hasBan
  simp only [Bool.or_eq_true, List.any_eq_true, occursIn_iff, List.contains,
    List.elem_eq_mem, decide_eq_true_eq]
  constructor
  · rintro (⟨w, hw1, hw2⟩ | h)
    · exact Or.inl ⟨w, hw2, hw1⟩
    · exact Or.inr h
  · rintro (⟨w, hw1, hw2⟩ | h)
    · exact Or.inl ⟨w, hw2, hw1⟩
    · exact Or.inr h

/-- C6: the rewriter fires exactly on phrases with more than two space
characters; a failing call (or one whose response strips to empty) leaves the
phrase unmodified with no retry, a successful one replaces it with the stripped
response; and a kept phrase that still has more than three words is truncated
to its first three before title-casing. -/
theorem rewriter_invocation_and_truncation :
    ∀ (r : List Char → Option (List Char)) (kw t : List Char),
      (countSpaces kw ≤ 2 → correctPhrase r kw = kw) ∧
      (2 < countSpaces kw → r kw = none → correctPhrase r kw = kw) ∧
      (2 < countSpaces kw → r kw = some t →
        correctPhrase r kw = if (stripList t).isEmpty then kw else stripList t) ∧
      (3 < (pyWords (lowerStr kw)).length →
        finalizePhrase kw = pyTitle (pyJoin (str " ") ((pyWords (lowerStr kw)).take 3))) := by
  intro r kw t
  refine ⟨?_, ?_, ?_, ?_⟩
  · intro h; unfold correctPhrase; rw [if_neg (by omega)]
  · intro h hr; unfold correctPhrase; rw [if_pos h, hr]
  · intro h hr; unfold correctPhrase; rw [if_pos h, hr]
  · intro h; unfold finalizePhrase; rw [if_pos h]

/-- Witness for C6: a failing rewriter leaves a four-word phrase unchanged, a
successful one substitutes its stripped response, a two-word phrase never
reaches the rewriter, and a four-word phrase is truncated to three words. -/
theorem rewriter_invocation_and_truncation_witness :
    correctPhrase noRewrite (str "a b c d") = str "a b c d" ∧
    correctPhrase (fun _ => some (str " x ")) (str "a b c d") = str "x" ∧
    correctPhrase noRewrite (str "a b") = str "a b" ∧
    finalizePhrase (str "a b c d") =
      pyTitle (pyJoin (str " ") ((pyWords (lowerStr (str "a b c d"))).take 3)) := by
  refine ⟨?_, ?_, ?_, ?_⟩
  · exact (rewriter_invocation_and_truncation noRewrite (str "a b c d") []).2.1
      (by decide) rfl
  · have h := (rewriter_invocation_and_truncation (fun _ => some (str " x "))
      (str "a b c d") (str " x ")).2.2.1 (by decide) rfl
    rw [h]; decide
  · exact (rewriter_invocation_and_truncation noRewrite (str "a b") []).1 (by decide)
  · exact (rewriter_invocation_and_truncation noRewrite (str "a b c d") []).2.2.2
      (by decide)

/-- A generation capability that rewrites every phrase to `"changed"`. -/
def rewChanged : List Char → Option (List Char) := fun _ => some (str "changed")

/-- C7 counterexample: the input `"a  b c"` is a single banned-word-free
phrase of three words, yet with a rewriter that answers `"changed"` the
normalizer output is `"Changed"`, not the title-cased phrase — the phrase has
three space characters, so the rewriter is consulted and its answer replaces
the phrase. -/
theorem normalize_three_words_cex :
    phrasesOf (str "a  b c") = [str "a  b c"] ∧
    (pyWords (str "a  b c")).length ≤ 3 ∧
    keepPhrase [] (str "a  b c") = true ∧
    process_keywords rewChanged [] (str "a  b c") = str "Changed" ∧
    str "Changed" ≠ pyTitle (str "a  b c") := by
  decide

/-- C8 counterexample: `"a\tb\tc\td"` contains no space characters, so the
rewriter is never invoked, yet normalization is not idempotent with the
catalog ban `"b c"`: the first pass truncates the four tab-separated words to
`"A B C"`, whose second pass is caught by the substring ban and dropped. -/
theorem normalize_idempotent_cex :
    phrasesOf (str "a\tb\tc\td") = [str "a\tb\tc\td"] ∧
    countSpaces (str "a\tb\tc\td") = 0 ∧
    process_keywords noRewrite [str "b c"] (str "a\tb\tc\td") = str "A B C" ∧
    process_keywords noRewrite [str "b c"]
        (process_keywords noRewrite [str "b c"] (str "a\tb\tc\td")) = [] ∧
    process_keywords noRewrite [str "b c"]
        (process_keywords noRewrite [str "b c"] (str "a\tb\tc\td")) ≠
      process_keywords noRewrite [str "b c"] (str "a\tb\tc\td") := by
  decide

/-! ### Character-level lemmas for the idempotence development -/

theorem char_eq_of_toNat {c d : Char} (h : c.toNat = d.toNat) : c = d := by
  have h2 := congrArg Char.ofNat h
  rwa [Char.ofNat_toNat, Char.ofNat_toNat] at h2

theorem pyToLower_fix {c : Char} (h : ¬(65 ≤ c.toNat ∧ c.toNat ≤ 90)) :
    pyToLower c = c := if_neg h

theorem pyToUpper_fix {c : Char} (h : ¬(97 ≤ c.toNat ∧ c.toNat ≤ 122)) :
    pyToUpper c = c := if_neg h

theorem isAsciiAlpha_pyToLower (c : Char) : isAsciiAlpha (pyToLower c) = isAsciiAlpha c := by
  simp only [isAsciiAlpha, toNat_pyToLower]
  rw [decide_eq_decide]
  split <;> omega

theorem isAsciiAlpha_pyToUpper (c : Char) : isAsciiAlpha (pyToUpper c) = isAsciiAlpha c := by
  simp only [isAsciiAlpha, toNat_pyToUpper]
  rw [decide_eq_decide]
  split <;> omega

theorem isSpaceChar_pyToLower (c : Char) : isSpaceChar (pyToLower c) = isSpaceChar c := by
  simp only [isSpaceChar, toNat_pyToLower]
  rw [decide_eq_decide]
  split <;> omega

theorem isSpaceChar_pyToUpper (c : Char) : isSpaceChar (pyToUpper c) = isSpaceChar c := by
  simp only [isSpaceChar, toNat_pyToUpper]
  rw [decide_eq_decide]
  split <;> omega

theorem isSepChar_pyToLower (c : Char) : isSepChar (pyToLower c) = isSepChar c := by
  simp only [isSepChar, toNat_pyToLower]
  rw [decide_eq_decide]
  split <;> omega

theorem isSepChar_pyToUpper (c : Char) : isSepChar (pyToUpper c) = isSepChar c := by
  simp only [isSepChar, toNat_pyToUpper]
  rw [decide_eq_decide]
  split <;> omega

theorem isSpace32_pyToLower (c : Char) : isSpace32 (pyToLower c) = isSpace32 c := by
  simp only [isSpace32, toNat_pyToLower]
  rw [decide_eq_decide]
  split <;> omega

theorem isSpace32_pyToUpper (c : Char) : isSpace32 (pyToUpper c) = isSpace32 c := by
  simp only [isSpace32, toNat_pyToUpper]
  rw [decide_eq_decide]
  split <;> omega

theorem pyToLower_pyToLower (c : Char) : pyToLower (pyToLower c) = pyToLower c := by
  by_cases h : 65 ≤ c.toNat ∧ c.toNat ≤ 90
  · have h1 : (pyToLower c).toNat = c.toNat + 32 := by rw [toNat_pyToLower, if_pos h]
    exact pyToLower_fix (by omega)
  · rw [pyToLower_fix h]
    exact pyToLower_fix h

theorem pyToUpper_pyToUpper (c : Char) : pyToUpper (pyToUpper c) = pyToUpper c := by
  by_cases h : 97 ≤ c.toNat ∧ c.toNat ≤ 122
  · have h1 : (pyToUpper c).toNat = c.toNat - 32 := by rw [toNat_pyToUpper, if_pos h]
    exact pyToUpper_fix (by omega)
  · rw [pyToUpper_fix h]
    exact pyToUpper_fix h

theorem pyToLower_pyToUpper (c : Char) : pyToLower (pyToUpper c) = pyToLower c := by
  by_cases h : 97 ≤ c.toNat ∧ c.toNat ≤ 122
  · have h1 : (pyToUpper c).toNat = c.toNat - 32 := by rw [toNat_pyToUpper, if_pos h]
    apply char_eq_of_toNat
    rw [toNat_pyToLower, toNat_pyToLower, h1, if_pos (by omega), if_neg (by omega)]
    omega
  · rw [pyToUpper_fix h]

theorem pyToUpper_pyToLower (c : Char) : pyToUpper (pyToLower c) = pyToUpper c := by
  by_cases h : 65 ≤ c.toNat ∧ c.toNat ≤ 90
  · have h1 : (pyToLower c).toNat = c.toNat + 32 := by rw [toNat_pyToLower, if_pos h]
    apply char_eq_of_toNat
    rw [toNat_pyToUpper, toNat_pyToUpper, h1, if_pos (by omega), if_neg (by omega)]
    omega
  · rw [pyToLower_fix h]

/-! ### Properties of `pyTitle` -/

theorem titleAux_cons (b : Bool) (c : Char) (t : List Char) :
    titleAux b (c :: t) =
      if isAsciiAlpha c then (cond b (pyToLower c) (pyToUpper c)) :: titleAux true t
      else c :: titleAux false t := rfl

theorem titleAux_length (s : List Char) : ∀ b, (titleAux b s).length = s.length := by
  induction s with
  | nil => intro b; rfl
  | cons c t ih =>
    intro b
    by_cases ha : isAsciiAlpha c <;> simp [titleAux_cons, ha, ih true, ih false]

theorem titleAux_map_isSpaceChar (s : List Char) :
    ∀ b, (titleAux b s).map isSpaceChar = s.map isSpaceChar := by
  induction s with
  | nil => intro b; rfl
  | cons c t ih =>
    intro b
    rw [titleAux_cons]
    by_cases ha : isAsciiAlpha c
    · rw [if_pos ha]
      cases b with
      | true => simp [isSpaceChar_pyToLower, ih true]
      | false => simp [isSpaceChar_pyToUpper, ih true]
    · rw [if_neg ha]
      simp [ih false]

theorem lowerStr_titleAux (s : List Char) :
    ∀ b, lowerStr (titleAux b s) = lowerStr s := by
  induction s with
  | nil => intro b; rfl
  | cons c t ih =>
    intro b
    rw [titleAux_cons]
    by_cases ha : isAsciiAlpha c
    · rw [if_pos ha]
      have iht := ih true
      simp only [lowerStr] at iht ⊢
      cases b with
      | true =>
        show (pyToLower c :: titleAux true t).map pyToLower = _
        simp [iht, pyToLower_pyToLower]
      | false =>
        show (pyToUpper c :: titleAux true t).map pyToLower = _
        simp [iht, pyToLower_pyToUpper]
    · rw [if_neg ha]
      have ihf := ih false
      simp only [lowerStr] at ihf ⊢
      simp [ihf]

theorem lowerStr_pyTitle (s : List Char) : lowerStr (pyTitle s) = lowerStr s :=
  lowerStr_titleAux s false

theorem countSpaces_titleAux (s : List Char) :
    ∀ b, countSpaces (titleAux b s) = countSpaces s := by
  induction s with
  | nil => intro b; rfl
  | cons c t ih =>
    intro b
    rw [titleAux_cons]
    by_cases ha : isAsciiAlpha c
    · rw [if_pos ha]
      have iht := ih true
      simp only [countSpaces] at iht ⊢
      cases b with
      | true => simp [List.countP_cons, isSpace32_pyToLower, iht]
      | false => simp [List.countP_cons, isSpace32_pyToUpper, iht]
    · rw [if_neg ha]
      have ihf := ih false
      simp only [countSpaces] at ihf ⊢
      simp [List.countP_cons, ihf]

theorem titleAux_idem (s : List Char) :
    ∀ b, titleAux b (titleAux b s) = titleAux b s := by
  induction s with
  | nil => intro b; rfl
  | cons c t ih =>
    intro b
    rw [titleAux_cons]
    by_cases ha : isAsciiAlpha c
    · rw [if_pos ha]
      cases b with
      | true =>
        have he : isAsciiAlpha (pyToLower c) = true := by
          rw [isAsciiAlpha_pyToLower]; exact ha
        show titleAux true (pyToLower c :: titleAux true t) = pyToLower c :: titleAux true t
        rw [titleAux_cons, if_pos he]
        show pyToLower (pyToLower c) :: titleAux true (titleAux true t) = _
        rw [pyToLower_pyToLower, ih true]
      | false =>
        have he : isAsciiAlpha (pyToUpper c) = true := by
          rw [isAsciiAlpha_pyToUpper]; exact ha
        show titleAux false (pyToUpper c :: titleAux true t) = pyToUpper c :: titleAux true t
        rw [titleAux_cons, if_pos he]
        show pyToUpper (pyToUpper c) :: titleAux true (titleAux true t) = _
        rw [pyToUpper_pyToUpper, ih true]
    · rw [if_neg ha]
      rw [titleAux_cons, if_neg ha, ih false]

theorem titleAux_sepFree (s : List Char) :
    ∀ b, (∀ c ∈ s, isSepChar c = false) → ∀ e ∈ titleAux b s, isSepChar e = false := by
  induction s with
  | nil => intro b _ e he; simp [titleAux] at he
  | cons c t ih =>
    intro b h e he
    rw [titleAux_cons] at he
    have hc : isSepChar c = false := h c (List.mem_cons_self c t)
    have htail : ∀ x ∈ t, isSepChar x = false :=
      fun x hx => h x (List.mem_cons_of_mem c hx)
    by_cases ha : isAsciiAlpha c
    · rw [if_pos ha] at he
      cases b with
      | true =>
        rcases List.mem_cons.mp he with rfl | he2
        · show isSepChar (pyToLower c) = false
          rw [isSepChar_pyToLower]; exact hc
        · exact ih true htail e he2
      | false =>
        rcases List.mem_cons.mp he with rfl | he2
        · show isSepChar (pyToUpper c) = false
          rw [isSepChar_pyToUpper]; exact hc
        · exact ih true htail e he2
    · rw [if_neg ha] at he
      rcases List.mem_cons.mp he with rfl | he2
      · exact hc
      · exact ih false htail e he2

/-! ### Properties of `stripList` -/

theorem strip_eq_self_iff (s : List Char) :
    stripList s = s ↔
      (List.dropWhile isSpaceChar s = s ∧ List.rdropWhile isSpaceChar s = s) := by
  constructor
  · intro h
    have h1 : (List.dropWhile isSpaceChar s).length ≤ s.length :=
      (List.dropWhile_suffix isSpaceChar).sublist.length_le
    have h2 : (stripList s).length ≤ (List.dropWhile isSpaceChar s).length :=
      (List.rdropWhile_prefix _ _).sublist.length_le
    rw [h] at h2
    have hlen : (List.dropWhile isSpaceChar s).length = s.length := by omega
    have hd : List.dropWhile isSpaceChar s = s :=
      (List.dropWhile_suffix isSpaceChar).sublist.eq_of_length hlen
    refine ⟨hd, ?_⟩
    unfold stripList at h
    rwa [hd] at h
  · rintro ⟨h1, h2⟩
    unfold stripList
    rw [h1, h2]

theorem dropWhile_eq_self_transfer (q : Char → Bool) {s t : List Char}
    (hmap : t.map q = s.map q) (h : List.dropWhile q s = s) :
    List.dropWhile q t = t := by
  cases t with
  | nil => rfl
  | cons d ds =>
    cases s with
    | nil => simp at hmap
    | cons c cs =>
      have hq : q c = false := by
        cases hqc : q c with
        | false => rfl
        | true =>
          rw [List.dropWhile_cons, hqc, if_pos rfl] at h
          have hle : (List.dropWhile q cs).length ≤ cs.length :=
            (List.dropWhile_suffix q).sublist.length_le
          have hlen : (List.dropWhile q cs).length = cs.length + 1 := by
            rw [h]; rfl
          omega
      have hd : q d = q c := by
        have h3 := congrArg List.head? hmap
        simpa using h3
      rw [List.dropWhile_cons, hd, hq, if_neg (by simp)]

theorem rdropWhile_eq_self_transfer (q : Char → Bool) {s t : List Char}
    (hmap : t.map q = s.map q) (h : List.rdropWhile q s = s) :
    List.rdropWhile q t = t := by
  have hs : List.dropWhile q s.reverse = s.reverse := by
    have h2 := congrArg List.reverse h
    unfold List.rdropWhile at h2
    rwa [List.reverse_reverse] at h2
  have hmap2 : t.reverse.map q = s.reverse.map q := by
    rw [List.map_reverse, List.map_reverse, hmap]
  have ht := dropWhile_eq_self_transfer q hmap2 hs
  unfold List.rdropWhile
  rw [ht, List.reverse_reverse]

theorem strip_eq_self_transfer {s t : List Char}
    (hmap : t.map isSpaceChar = s.map isSpaceChar) (h : stripList s = s) :
    stripList t = t := by
  rcases (strip_eq_self_iff s).mp h with ⟨h1, h2⟩
  exact (strip_eq_self_iff t).mpr
    ⟨dropWhile_eq_self_transfer _ hmap h1, rdropWhile_eq_self_transfer _ hmap h2⟩

theorem dropWhile_eq_self_of_prefix {q : Char → Bool} {y x : List Char}
    (hp : y <+: x) (h : List.dropWhile q x = x) : List.dropWhile q y = y := by
  cases y with
  | nil => rfl
  | cons c ys =>
    rcases hp with ⟨r, hr⟩
    subst hr
    have hq : q c = false := by
      cases hqc : q c with
      | false => rfl
      | true =>
        rw [List.cons_append, List.dropWhile_cons, hqc, if_pos rfl] at h
        have hle : (List.dropWhile q (ys ++ r)).length ≤ (ys ++ r).length :=
          (List.dropWhile_suffix q).sublist.length_le
        have hlen : (List.dropWhile q (ys ++ r)).length = (ys ++ r).length + 1 := by
          rw [h]; rfl
        omega
    rw [List.dropWhile_cons, hq, if_neg (by simp)]

theorem strip_idem (s : List Char) : stripList (stripList s) = stripList s := by
  apply (strip_eq_self_iff _).mpr
  constructor
  · exact dropWhile_eq_self_of_prefix (List.rdropWhile_prefix _ _)
      (List.dropWhile_idempotent _ _)
  · exact List.rdropWhile_idempotent _ _

theorem strip_cons_of_space {c : Char} (x : List Char) (h : isSpaceChar c = true) :
    stripList (c :: x) = stripList x := by
  unfold stripList
  rw [List.dropWhile_cons, h, if_pos rfl]

/-! ### Properties of `splitKeep`, `phrasesOf` and `pyJoin` -/

theorem splitKeep_cons (q : Char → Bool) (c : Char) (t : List Char) :
    splitKeep q (c :: t) =
      if q c then [] :: splitKeep q t
      else
        match splitKeep q t with
        | [] => [[c]]
        | g :: gs => (c :: g) :: gs := rfl

theorem splitKeep_sepFree (q : Char → Bool) (s : List Char) :
    ∀ g ∈ splitKeep q s, ∀ c ∈ g, q c = false := by
  induction s with
  | nil =>
    intro g hg c hc
    simp only [splitKeep, List.mem_singleton] at hg
    subst hg
    simp at hc
  | cons d t ih =>
    intro g hg c hc
    rw [splitKeep_cons] at hg
    by_cases hd : q d
    · rw [if_pos hd] at hg
      rcases List.mem_cons.mp hg with rfl | hg2
      · simp at hc
      · exact ih g hg2 c hc
    · rw [if_neg hd] at hg
      cases hsp : splitKeep q t with
      | nil => exact absurd hsp (splitKeep_ne_nil q t)
      | cons g0 gs =>
        rw [hsp] at hg
        have hd' : q d = false := by simpa using hd
        rcases List.mem_cons.mp hg with rfl | hg2
        · rcases List.mem_cons.mp hc with rfl | hc2
          · exact hd'
          · exact ih g0 (hsp ▸ List.mem_cons_self g0 gs) c hc2
        · exact ih g (hsp ▸ List.mem_cons_of_mem g0 hg2) c hc

theorem splitKeep_append (q : Char → Bool) (xs : List Char) {ys : List Char}
    (hx : ∀ c ∈ xs, q c = false) {g : List Char} {gs : List (List Char)}
    (h : splitKeep q ys = g :: gs) :
    splitKeep q (xs ++ ys) = (xs ++ g) :: gs := by
  induction xs with
  | nil => simpa using h
  | cons c cs ih =>
    have hc : q c = false := hx c (List.mem_cons_self c cs)
    have ih2 := ih (fun x hx2 => hx x (List.mem_cons_of_mem c hx2))
    rw [List.cons_append, splitKeep_cons, if_neg (by simp [hc]), ih2]
    simp

theorem splitKeep_noSep (q : Char → Bool) (xs : List Char)
    (hx : ∀ c ∈ xs, q c = false) : splitKeep q xs = [xs] := by
  have h := @splitKeep_append q xs [] hx [] [] rfl
  simpa using h

/-- The split/strip/filter pipeline inverts `", ".join` on clean pieces. -/
theorem phrasesOf_pyJoin (pieces : List (List Char))
    (h : ∀ p ∈ pieces, p ≠ [] ∧ stripList p = p ∧ ∀ c ∈ p, isSepChar c = false) :
    phrasesOf (pyJoin (str ", ") pieces) = pieces := by
  induction pieces with
  | nil => rfl
  | cons p rest ih =>
    obtain ⟨hpne, hpstrip, hpsep⟩ := h p (List.mem_cons_self p rest)
    have hrest := fun x hx => h x (List.mem_cons_of_mem p hx)
    cases rest with
    | nil =>
      show phrasesOf p = [p]
      unfold phrasesOf
      rw [splitKeep_noSep isSepChar p hpsep]
      simp [hpstrip, hpne]
    | cons p2 rs =>
      have hjoin : pyJoin (str ", ") (p :: p2 :: rs) =
          p ++ (str ", " ++ pyJoin (str ", ") (p2 :: rs)) := by
        show p ++ str ", " ++ _ = _
        rw [List.append_assoc]
      cases hsz : splitKeep isSepChar (pyJoin (str ", ") (p2 :: rs)) with
      | nil => exact absurd hsz (splitKeep_ne_nil _ _)
      | cons g gs =>
        have hsep2 : str ", " ++ pyJoin (str ", ") (p2 :: rs) =
            Char.ofNat 44 :: (Char.ofNat 32 :: pyJoin (str ", ") (p2 :: rs)) := by
          have hcs : str ", " = [Char.ofNat 44, Char.ofNat 32] := by decide
          rw [hcs]
          rfl
        have htail : splitKeep isSepChar (str ", " ++ pyJoin (str ", ") (p2 :: rs)) =
            [] :: (Char.ofNat 32 :: g) :: gs := by
          rw [hsep2, splitKeep_cons, if_pos (by decide), splitKeep_cons,
            if_neg (by decide), hsz]
        have hmain := splitKeep_append isSepChar p hpsep htail
        rw [hjoin]
        unfold phrasesOf
        rw [hmain, List.append_nil, List.map_cons, List.map_cons,
          hpstrip, strip_cons_of_space g (by decide),
          List.filter_cons_of_pos (by simp [hpne])]
        have ihz := ih hrest
        unfold phrasesOf at ihz
        rw [hsz, List.map_cons] at ihz
        exact congrArg (p :: ·) ihz

/-- `keepPhrase` looks only at the lowercased phrase. -/
theorem keepPhrase_congr (bans : List (List Char)) {a b : List Char}
    (h : lowerStr a = lowerStr b) : keepPhrase bans a = keepPhrase bans b := by
  unfold keepPhrase hasBan
  rw [h]

/-- Normal form of the normalizer when no phrase reaches the rewriter or the
truncation: drop the banned phrases, title-case the survivors, rejoin. -/
theorem process_normal_form (r : List Char → Option (List Char))
    (bans : List (List Char)) (raw : List Char)
    (h : ∀ p ∈ phrasesOf raw, countSpaces p ≤ 2 ∧ (pyWords (lowerStr p)).length ≤ 3) :
    process_keywords r bans raw =
      pyJoin (str ", ") (((phrasesOf raw).filter (keepPhrase bans)).map pyTitle) := by
  by_cases hraw : raw.isEmpty
  · have hnil : raw = [] := by simpa using hraw
    subst hnil
    rfl
  · unfold process_keywords
    rw [if_neg hraw]
    have hcorr : (phrasesOf raw).map (correctPhrase r) = phrasesOf raw := by
      have hfix : ∀ p ∈ phrasesOf raw, correctPhrase r p = id p := by
        intro p hp
        show correctPhrase r p = p
        unfold correctPhrase
        rw [if_neg (by have := (h p hp).1; omega)]
      rw [List.map_congr_left hfix, List.map_id]
    show pyJoin (str ", ")
        (List.map finalizePhrase
          (List.filter (keepPhrase bans) (List.map (correctPhrase r) (phrasesOf raw)))) = _
    rw [hcorr]
    congr 1
    apply List.map_congr_left
    intro p hp
    have hp2 := List.mem_filter.mp hp
    unfold finalizePhrase
    rw [if_neg (by have := (h p hp2.1).2; omega)]

/-- C7 (amended): for every raw input whose phrases each contain at most two
space characters (so the rewriter is never consulted) and at most three
whitespace-separated words (so no truncation occurs) and are free of banned
words, the normalizer title-cases each phrase and rejoins them with `", "`,
preserving phrase order and count; empty input yields empty output. -/
theorem normalize_clean_phrases (r : List Char → Option (List Char))
    (bans : List (List Char)) (raw : List Char)
    (h : ∀ p ∈ phrasesOf raw, countSpaces p ≤ 2 ∧ (pyWords (lowerStr p)).length ≤ 3 ∧
      keepPhrase bans p = true) :
    process_keywords r bans raw = pyJoin (str ", ") ((phrasesOf raw).map pyTitle) := by
  rw [process_normal_form r bans raw (fun p hp => ⟨(h p hp).1, (h p hp).2.1⟩),
    List.filter_eq_self.mpr (fun p hp => (h p hp).2.2)]

/-- Witness for the amended C7 on the spec's clean example input. -/
theorem normalize_clean_phrases_witness :
    process_keywords noRewrite [] (str "dark thriller, keep this") =
      pyJoin (str ", ") ((phrasesOf (str "dark thriller, keep this")).map pyTitle) :=
  normalize_clean_phrases noRewrite [] (str "dark thriller, keep this") (by decide)

/-- Every phrase produced by `phrasesOf` is non-empty, already stripped, and
free of split separators. -/
theorem phrasesOf_clean (raw : List Char) :
    ∀ p ∈ phrasesOf raw, p ≠ [] ∧ stripList p = p ∧ ∀ c ∈ p, isSepChar c = false := by
  intro p hp
  unfold phrasesOf at hp
  have hp2 := List.mem_filter.mp hp
  have hpne : p ≠ [] := by simpa using hp2.2
  rcases List.mem_map.mp hp2.1 with ⟨g, hg, hgstrip⟩
  refine ⟨hpne, ?_, ?_⟩
  · rw [← hgstrip]
    exact strip_idem g
  · intro c hc
    have hsub : List.Sublist (stripList g) g := by
      unfold stripList
      exact (List.rdropWhile_prefix _ _).sublist.trans (List.dropWhile_suffix _).sublist
    have hcg : c ∈ g := hsub.subset (by rw [hgstrip]; exact hc)
    exact splitKeep_sepFree isSepChar raw g hg c hcg

/-- C8 (amended): normalization is idempotent on already-clean input — for
every raw input whose phrases each contain at most two space characters (so
the rewriter is never consulted) and at most three whitespace-separated words
(so no truncation, which could expose a catalog substring ban, occurs),
running the normalizer on its own output reproduces that output, with the
same ban sets on both runs and any rewriter behaviour on either run. -/
theorem normalize_idempotent_clean (r r2 : List Char → Option (List Char))
    (bans : List (List Char)) (raw : List Char)
    (h : ∀ p ∈ phrasesOf raw, countSpaces p ≤ 2 ∧ (pyWords (lowerStr p)).length ≤ 3) :
    process_keywords r2 bans (process_keywords r bans raw) =
      process_keywords r bans raw := by
  rw [process_normal_form r bans raw h]
  have hSmem : ∀ p ∈ (phrasesOf raw).filter (keepPhrase bans),
      p ∈ phrasesOf raw ∧ keepPhrase bans p = true := by
    intro p hp
    have hp2 := List.mem_filter.mp hp
    exact ⟨hp2.1, hp2.2⟩
  have htksfacts : ∀ q ∈ ((phrasesOf raw).filter (keepPhrase bans)).map pyTitle,
      q ≠ [] ∧ stripList q = q ∧ ∀ c ∈ q, isSepChar c = false := by
    intro q hq
    rcases List.mem_map.mp hq with ⟨p, hpS, rfl⟩
    obtain ⟨hpPhr, hpKeep⟩ := hSmem p hpS
    obtain ⟨hpne, hpstrip, hpsep⟩ := phrasesOf_clean raw p hpPhr
    refine ⟨?_, ?_, ?_⟩
    · intro hnil
      have hlen := congrArg List.length hnil
      rw [show (pyTitle p).length = p.length from titleAux_length p false] at hlen
      exact hpne (List.length_eq_zero.mp hlen)
    · exact strip_eq_self_transfer (titleAux_map_isSpaceChar p false) hpstrip
    · exact fun c hc => titleAux_sepFree p false hpsep c hc
  have hjoin : phrasesOf (pyJoin (str ", ")
      (((phrasesOf raw).filter (keepPhrase bans)).map pyTitle)) =
      ((phrasesOf raw).filter (keepPhrase bans)).map pyTitle :=
    phrasesOf_pyJoin _ htksfacts
  have h2 : ∀ q ∈ phrasesOf (pyJoin (str ", ")
      (((phrasesOf raw).filter (keepPhrase bans)).map pyTitle)),
      countSpaces q ≤ 2 ∧ (pyWords (lowerStr q)).length ≤ 3 := by
    rw [hjoin]
    intro q hq
    rcases List.mem_map.mp hq with ⟨p, hpS, rfl⟩
    obtain ⟨hpPhr, _⟩ := hSmem p hpS
    obtain ⟨hc1, hc2⟩ := h p hpPhr
    constructor
    · rw [show countSpaces (pyTitle p) = countSpaces p from countSpaces_titleAux p false]
      exact hc1
    · rw [show lowerStr (pyTitle p) = lowerStr p from lowerStr_pyTitle p]
      exact hc2
  rw [process_normal_form r2 bans _ h2, hjoin]
  have hkeep : (((phrasesOf raw).filter (keepPhrase bans)).map pyTitle).filter
      (keepPhrase bans) = ((phrasesOf raw).filter (keepPhrase bans)).map pyTitle := by
    apply List.filter_eq_self.mpr
    intro q hq
    rcases List.mem_map.mp hq with ⟨p, hpS, rfl⟩
    obtain ⟨_, hpKeep⟩ := hSmem p hpS
    rw [keepPhrase_congr bans (lowerStr_pyTitle p)]
    exact hpKeep
  rw [hkeep]
  have htt : (((phrasesOf raw).filter (keepPhrase bans)).map pyTitle).map pyTitle =
      ((phrasesOf raw).filter (keepPhrase bans)).map pyTitle := by
    rw [List.map_map]
    exact List.map_congr_left (fun p _ => titleAux_idem p false)
  rw [htt]

/-- Witness for the amended C8 on the spec's example input. -/
theorem normalize_idempotent_clean_witness :
    process_keywords noRewrite []
        (process_keywords noRewrite [] (str "dark thriller, epic build")) =
      process_keywords noRewrite [] (str "dark thriller, epic build") :=
  normalize_idempotent_clean noRewrite noRewrite [] (str "dark thriller, epic build")
    (by decide)

end Publisher
